import Mathlib

/-!
Verification development for the influx-tool repository.

Go strings and byte strings are modelled as `List Char` (all byte constants the
code compares against are ASCII, so the character-level model coincides with the
byte-level one on every input the code distinguishes). Machine integers are
modelled as `Int`/`Nat`; times are Unix nanoseconds as `Int`.
-/

namespace InfluxTool

/-! ### Go string primitives (strconv.Itoa, strings.Index/Cut/Split/ReplaceAll/Contains) -/

/-- Decimal digit character, `'0' + n`. -/
def digitChar (n : Nat) : Char := Char.ofNat (48 + n)

/-- Model of Go `strconv.Itoa` restricted to non-negative values (all call sites
pass a loop index `idx ≥ 0`). -/
def itoa (n : Nat) : List Char :=
  if _h : n < 10 then [digitChar n]
  else itoa (n / 10) ++ [digitChar (n % 10)]
decreasing_by exact Nat.div_lt_self (by omega) (by omega)

/-- Boolean test that `p` is a prefix of `s` (Go `strings.HasPrefix` / byte compare). -/
def litPre : List Char → List Char → Bool
  | [], _ => true
  | _ :: _, [] => false
  | a :: as, b :: bs => a == b && litPre as bs

/-- Model of Go `strings.Cut(s, sep)`: splits around the first occurrence of
`sep`, returning `none` when `sep` does not occur (Go's `ok = false`).
For `sep = ""` it returns `some ("", s)`, matching Go (`Index(s, "") = 0`). -/
def cutL : List Char → List Char → Option (List Char × List Char)
  | [], pat => if litPre pat [] then some ([], []) else none
  | c :: rest, pat =>
    if litPre pat (c :: rest) then some ([], (c :: rest).drop pat.length)
    else (cutL rest pat).map (fun pr => (c :: pr.1, pr.2))

/-- Model of Go `strings.Contains` (`strings.Index(s, pat) >= 0`). -/
def containsL (s pat : List Char) : Bool := (cutL s pat).isSome

/-- Model of Go `strings.ReplaceAll(s, pat, rep)` for a non-empty pattern:
replace non-overlapping occurrences left to right.  (The only pattern the
code ever passes is `"%idx"`, which is non-empty; for `pat = []` this model
returns `s` unchanged.) -/
def replAll (pat rep : List Char) : List Char → List Char
  | [] => []
  | c :: rest =>
    if h : pat ≠ [] ∧ litPre pat (c :: rest) then
      rep ++ replAll pat rep ((c :: rest).drop pat.length)
    else
      c :: replAll pat rep rest
termination_by s => s.length
decreasing_by
  · simp only [List.length_drop, List.length_cons]
    have : pat.length ≥ 1 := by
      cases hp : pat with
      | nil => exact absurd hp h.1
      | cons x xs => simp
    omega
  · simp

/-- Number of pattern occurrences consumed by the left-to-right scan of
`replAll` (Go `strings.Count` for non-empty patterns). -/
def countOcc (pat : List Char) : List Char → Nat
  | [] => 0
  | c :: rest =>
    if h : pat ≠ [] ∧ litPre pat (c :: rest) then
      1 + countOcc pat ((c :: rest).drop pat.length)
    else
      countOcc pat rest
termination_by s => s.length
decreasing_by
  · simp only [List.length_drop, List.length_cons]
    have : pat.length ≥ 1 := by
      cases hp : pat with
      | nil => exact absurd hp h.1
      | cons x xs => simp
    omega
  · simp

theorem litPre_iff (p s : List Char) : litPre p s = true ↔ ∃ t, s = p ++ t := by
  induction p generalizing s with
  | nil => simp [litPre]
  | cons a as ih =>
    cases s with
    | nil => simp [litPre]
    | cons b bs =>
      simp only [litPre, Bool.and_eq_true, beq_iff_eq, ih, List.cons_append,
        List.cons.injEq]
      constructor
      · rintro ⟨rfl, t, rfl⟩; exact ⟨t, rfl, rfl⟩
      · rintro ⟨t, rfl, rfl⟩; exact ⟨rfl, t, rfl⟩

theorem itoa_ne_nil (n : Nat) : itoa n ≠ [] := by
  unfold itoa
  split <;> simp

theorem digitChar_inj : ∀ a < 10, ∀ b < 10, digitChar a = digitChar b → a = b := by
  decide

theorem itoa_small {n : Nat} (h : n < 10) : itoa n = [digitChar n] := by
  rw [itoa]; simp [h]

theorem itoa_large {n : Nat} (h : ¬ n < 10) : itoa n = itoa (n / 10) ++ [digitChar (n % 10)] := by
  conv_lhs => rw [itoa]
  simp [h]

theorem itoa_len_pos (n : Nat) : 1 ≤ (itoa n).length := by
  cases hx : itoa n with
  | nil => exact absurd hx (itoa_ne_nil n)
  | cons _ _ => simp

theorem itoa_inj : ∀ m n : Nat, itoa m = itoa n → m = n := by
  intro m
  induction m using Nat.strong_induction_on with
  | _ m ih =>
    intro n h
    by_cases hm : m < 10 <;> by_cases hn : n < 10
    · rw [itoa_small hm, itoa_small hn] at h
      exact digitChar_inj m hm n hn (by simpa using h)
    · rw [itoa_small hm, itoa_large hn] at h
      have hl := congrArg List.length h
      simp only [List.length_append, List.length_singleton] at hl
      have := itoa_len_pos (n / 10)
      omega
    · rw [itoa_large hm, itoa_small hn] at h
      have hl := congrArg List.length h
      simp only [List.length_append, List.length_singleton] at hl
      have := itoa_len_pos (m / 10)
      omega
    · rw [itoa_large hm, itoa_large hn] at h
      have hlen : (itoa (m / 10)).length = (itoa (n / 10)).length := by
        have := congrArg List.length h
        simp only [List.length_append, List.length_singleton] at this
        omega
      obtain ⟨h1, h2⟩ := List.append_inj h hlen
      have hq : m / 10 = n / 10 := ih (m / 10) (Nat.div_lt_self (by omega) (by omega)) _ h1
      have hr : m % 10 = n % 10 := by
        have : digitChar (m % 10) = digitChar (n % 10) := by simpa using h2
        exact digitChar_inj _ (Nat.mod_lt _ (by omega)) _ (Nat.mod_lt _ (by omega)) this
      omega

theorem cutL_pos {s pat : List Char} (h : litPre pat s = true) :
    cutL s pat = some ([], s.drop pat.length) := by
  cases s with
  | nil => simp [cutL, h]
  | cons c rest => simp [cutL, h]

theorem cutL_nil_neg {pat : List Char} (h : litPre pat [] = false) :
    cutL [] pat = none := by
  simp [cutL, h]

theorem cutL_cons_neg {pat : List Char} {c : Char} {rest : List Char}
    (h : litPre pat (c :: rest) = false) :
    cutL (c :: rest) pat = (cutL rest pat).map (fun pr => (c :: pr.1, pr.2)) := by
  simp [cutL, h]

theorem cutL_eq_append {pat : List Char} :
    ∀ {s a b : List Char}, cutL s pat = some (a, b) → s = a ++ pat ++ b := by
  intro s
  induction s with
  | nil =>
    intro a b h
    cases hp : litPre pat ([] : List Char) with
    | true =>
      rw [cutL_pos hp] at h
      injection h with hpair
      injection hpair with h1 h2
      obtain ⟨t, ht⟩ := (litPre_iff pat []).mp hp
      have hpat : pat = [] := by
        cases pat with
        | nil => rfl
        | cons x xs => simp at ht
      subst hpat
      simp [← h1, ← h2]
    | false =>
      rw [cutL_nil_neg hp] at h
      simp at h
  | cons c rest ih =>
    intro a b h
    cases hp : litPre pat (c :: rest) with
    | true =>
      rw [cutL_pos hp] at h
      injection h with hpair
      injection hpair with h1 h2
      obtain ⟨t, ht⟩ := (litPre_iff pat (c :: rest)).mp hp
      rw [← h1, ← h2, ht, List.drop_left]
      simp
    | false =>
      rw [cutL_cons_neg hp] at h
      rw [Option.map_eq_some'] at h
      obtain ⟨⟨a0, b0⟩, hcut, heq⟩ := h
      injection heq with h1 h2
      rw [← h1, ← h2, ih hcut]
      simp

theorem cutL_first {pat : List Char} :
    ∀ {s a b : List Char}, cutL s pat = some (a, b) →
      ∀ a' b', s = a' ++ pat ++ b' → a.length ≤ a'.length := by
  intro s
  induction s with
  | nil =>
    intro a b h a' b' hs
    cases hp : litPre pat ([] : List Char) with
    | true =>
      rw [cutL_pos hp] at h
      injection h with hpair
      injection hpair with h1 h2
      simp [← h1]
    | false =>
      rw [cutL_nil_neg hp] at h
      simp at h
  | cons c rest ih =>
    intro a b h a' b' hs
    cases hp : litPre pat (c :: rest) with
    | true =>
      rw [cutL_pos hp] at h
      injection h with hpair
      injection hpair with h1 h2
      simp [← h1]
    | false =>
      rw [cutL_cons_neg hp] at h
      rw [Option.map_eq_some'] at h
      obtain ⟨⟨a0, b0⟩, hcut, heq⟩ := h
      injection heq with h1 h2
      cases a' with
      | nil =>
        exfalso
        have hpre : litPre pat (c :: rest) = true := by
          rw [litPre_iff]
          exact ⟨b', by simpa using hs⟩
        rw [hpre] at hp
        exact Bool.true_eq_false.mp hp
      | cons x xs =>
        simp only [List.cons_append, List.cons.injEq] at hs
        have hrec := ih hcut xs b' hs.2
        rw [← h1]
        simp only [List.length_cons]
        omega

theorem cutL_none_iff {s pat : List Char} :
    cutL s pat = none ↔ ∀ a b : List Char, s ≠ a ++ pat ++ b := by
  constructor
  · intro h a b hs
    subst hs
    induction a with
    | nil =>
      have hp : litPre pat ([] ++ pat ++ b) = true := by
        rw [litPre_iff]; exact ⟨b, by simp⟩
      rw [cutL_pos hp] at h
      simp at h
    | cons x xs ih =>
      rw [show ((x :: xs) ++ pat ++ b) = x :: (xs ++ pat ++ b) by simp] at h
      cases hp : litPre pat (x :: (xs ++ pat ++ b)) with
      | true =>
        rw [cutL_pos hp] at h
        simp at h
      | false =>
        rw [cutL_cons_neg hp] at h
        rw [Option.map_eq_none'] at h
        exact ih h
  · intro h
    cases hc : cutL s pat with
    | none => rfl
    | some pr =>
      exfalso
      exact h pr.1 pr.2 (cutL_eq_append (show cutL s pat = some (pr.1, pr.2) by simpa using hc))

theorem containsL_iff {s pat : List Char} :
    containsL s pat = true ↔ ∃ a b : List Char, s = a ++ pat ++ b := by
  unfold containsL
  rw [Option.isSome_iff_ne_none]
  constructor
  · intro h
    cases hc : cutL s pat with
    | none => exact absurd hc h
    | some pr => exact ⟨pr.1, pr.2, cutL_eq_append (show cutL s pat = some (pr.1, pr.2) by simpa using hc)⟩
  · rintro ⟨a, b, rfl⟩ hnone
    exact (cutL_none_iff.mp hnone) a b rfl

theorem countOcc_nil (pat : List Char) : countOcc pat [] = 0 := by
  rw [countOcc.eq_def]

theorem countOcc_cons_pos {pat : List Char} {c : Char} {rest : List Char}
    (h : pat ≠ [] ∧ litPre pat (c :: rest) = true) :
    countOcc pat (c :: rest) = 1 + countOcc pat ((c :: rest).drop pat.length) := by
  rw [countOcc.eq_def]
  simp only [dif_pos h]

theorem countOcc_cons_neg {pat : List Char} {c : Char} {rest : List Char}
    (h : ¬ (pat ≠ [] ∧ litPre pat (c :: rest) = true)) :
    countOcc pat (c :: rest) = countOcc pat rest := by
  rw [countOcc.eq_def]
  simp only [dif_neg h]

theorem replAll_nil (pat rep : List Char) : replAll pat rep [] = [] := by
  rw [replAll.eq_def]

theorem replAll_cons_pos {pat rep : List Char} {c : Char} {rest : List Char}
    (h : pat ≠ [] ∧ litPre pat (c :: rest) = true) :
    replAll pat rep (c :: rest) = rep ++ replAll pat rep ((c :: rest).drop pat.length) := by
  rw [replAll.eq_def]
  simp only [dif_pos h]

theorem replAll_cons_neg {pat rep : List Char} {c : Char} {rest : List Char}
    (h : ¬ (pat ≠ [] ∧ litPre pat (c :: rest) = true)) :
    replAll pat rep (c :: rest) = c :: replAll pat rep rest := by
  rw [replAll.eq_def]
  simp only [dif_neg h]

theorem countOcc_pos_of_contains {pat : List Char} (hp : pat ≠ []) :
    ∀ {s : List Char}, containsL s pat = true → 1 ≤ countOcc pat s := by
  intro s
  induction s with
  | nil =>
    intro h
    exfalso
    obtain ⟨a, b, hab⟩ := containsL_iff.mp h
    have hlen := congrArg List.length hab
    simp only [List.length_nil, List.length_append] at hlen
    have : pat.length = 0 := by omega
    exact hp (List.length_eq_zero.mp this)
  | cons c rest ih =>
    intro h
    by_cases hb : pat ≠ [] ∧ litPre pat (c :: rest) = true
    · rw [countOcc_cons_pos hb]; omega
    · rw [countOcc_cons_neg hb]
      apply ih
      obtain ⟨a, b, hab⟩ := containsL_iff.mp h
      cases a with
      | nil =>
        exfalso
        apply hb
        refine ⟨hp, ?_⟩
        rw [litPre_iff]
        exact ⟨b, by simpa using hab⟩
      | cons x xs =>
        simp only [List.cons_append, List.cons.injEq] at hab
        rw [containsL_iff]
        refine ⟨xs, b, ?_⟩
        rw [List.append_assoc]
        rw [← List.append_assoc]
        exact hab.2

theorem litPre_length {pat s : List Char} (h : litPre pat s = true) : pat.length ≤ s.length := by
  obtain ⟨t, rfl⟩ := (litPre_iff pat s).mp h
  simp

theorem replAll_length (pat rep : List Char) :
    ∀ (s : List Char),
      (replAll pat rep s).length + countOcc pat s * pat.length
        = s.length + countOcc pat s * rep.length := by
  suffices H : ∀ (n : Nat) (s : List Char), s.length ≤ n →
      (replAll pat rep s).length + countOcc pat s * pat.length
        = s.length + countOcc pat s * rep.length by
    intro s
    exact H s.length s le_rfl
  intro n
  induction n with
  | zero =>
    intro s hs
    have : s = [] := List.eq_nil_of_length_eq_zero (by omega)
    subst this
    simp [replAll_nil, countOcc_nil]
  | succ n ih =>
    intro s hs
    cases s with
    | nil => simp [replAll_nil, countOcc_nil]
    | cons c rest =>
      by_cases hb : pat ≠ [] ∧ litPre pat (c :: rest) = true
      · rw [replAll_cons_pos hb, countOcc_cons_pos hb]
        have hple : pat.length ≤ (c :: rest).length := litPre_length hb.2
        have hpat1 : 1 ≤ pat.length := by
          cases hp : pat with
          | nil => exact absurd hp hb.1
          | cons _ _ => simp
        have hih := ih ((c :: rest).drop pat.length) (by
          simp only [List.length_drop, List.length_cons]
          simp only [List.length_cons] at hs
          omega)
        simp only [List.length_append, Nat.add_mul, Nat.one_mul]
        generalize countOcc pat ((c :: rest).drop pat.length) * pat.length = X at hih ⊢
        generalize countOcc pat ((c :: rest).drop pat.length) * rep.length = Y at hih ⊢
        simp only [List.length_drop] at hih
        simp only [List.length_cons] at hple hih ⊢
        omega
      · rw [replAll_cons_neg hb, countOcc_cons_neg hb]
        have hih := ih rest (by simp only [List.length_cons] at hs; omega)
        simp only [List.length_cons]
        omega

theorem replAll_inj_rep {pat : List Char} (hp : pat ≠ []) :
    ∀ (s r1 r2 : List Char), 1 ≤ countOcc pat s →
      replAll pat r1 s = replAll pat r2 s → r1 = r2 := by
  have hlen : ∀ (s r1 r2 : List Char), 1 ≤ countOcc pat s →
      replAll pat r1 s = replAll pat r2 s → r1.length = r2.length := by
    intro s r1 r2 hc heq
    have h1 := replAll_length pat r1 s
    have h2 := replAll_length pat r2 s
    rw [heq] at h1
    have : countOcc pat s * r1.length = countOcc pat s * r2.length := by omega
    exact Nat.eq_of_mul_eq_mul_left (by omega) this
  suffices H : ∀ (n : Nat) (s : List Char), s.length ≤ n → ∀ r1 r2, 1 ≤ countOcc pat s →
      replAll pat r1 s = replAll pat r2 s → r1 = r2 by
    intro s
    exact H s.length s le_rfl
  intro n
  induction n with
  | zero =>
    intro s hs r1 r2 hc
    have : s = [] := List.eq_nil_of_length_eq_zero (by omega)
    subst this
    rw [countOcc_nil] at hc
    omega
  | succ n ih =>
    intro s hs r1 r2 hc heq
    cases s with
    | nil =>
      rw [countOcc_nil] at hc
      omega
    | cons c rest =>
      by_cases hb : pat ≠ [] ∧ litPre pat (c :: rest) = true
      · have hl := hlen (c :: rest) r1 r2 hc heq
        rw [replAll_cons_pos hb, replAll_cons_pos hb] at heq
        exact (List.append_inj heq hl).1
      · rw [replAll_cons_neg hb, replAll_cons_neg hb] at heq
        simp only [List.cons.injEq] at heq
        rw [countOcc_cons_neg hb] at hc
        exact ih rest (by simp only [List.length_cons] at hs; omega) r1 r2 hc heq.2

/-- Model of Go `strings.Split(s, sep)`: for a non-empty separator, the pieces
between the non-overlapping occurrences of `sep`; for `sep = ""`, the list of
single-character strings (Go's explode). -/
def splitOnL (sep : List Char) (s : List Char) : List (List Char) :=
  if hsep : sep = [] then s.map (fun c => [c])
  else
    match h : cutL s sep with
    | some pr => pr.1 :: splitOnL sep pr.2
    | none => [s]
termination_by s.length
decreasing_by
  have hs := cutL_eq_append h
  rw [hs]
  simp only [List.length_append]
  have : 1 ≤ sep.length := by
    cases hc : sep with
    | nil => exact absurd hc hsep
    | cons _ _ => simp
  omega

theorem splitOnL_pos {sep s a b : List Char} (hsep : sep ≠ []) (h : cutL s sep = some (a, b)) :
    splitOnL sep s = a :: splitOnL sep b := by
  rw [splitOnL]
  simp only [dif_neg hsep]
  split
  · rename_i pr heq
    rw [heq] at h
    injection h with hpair
    rw [hpair]
  · rename_i heq
    rw [heq] at h
    simp at h

theorem splitOnL_neg {sep s : List Char} (hsep : sep ≠ []) (h : cutL s sep = none) :
    splitOnL sep s = [s] := by
  rw [splitOnL]
  simp only [dif_neg hsep]
  split
  · rename_i pr heq
    rw [heq] at h
    simp at h
  · rfl

/-! ### internal/hash (part_000): shard-key templates — `NewShardTpl`, `GetKey`, `GetKeyV2` -/

/-- Token `%org` (`ShardKeyVarOrg`). -/
def varOrg : List Char := ['%', 'o', 'r', 'g']

/-- Token `%bk` (`ShardKeyVarBk`). -/
def varBk : List Char := ['%', 'b', 'k']

/-- Token `%db` (`ShardKeyVarDb`). -/
def varDb : List Char := ['%', 'd', 'b']

/-- Token `%mm` (`ShardKeyVarMm`). -/
def varMm : List Char := ['%', 'm', 'm']

/-- Token `%idx` (`HashKeyVarIdx`). -/
def varIdxT : List Char := ['%', 'i', 'd', 'x']

/-- The inner step of the `NewShardTpl` scan: try each token of `ShardKeyVar`
(`%org, %bk, %db, %mm`, in that order) as `tpl[j:j+n] == v`; the tokens are
pairwise non-overlapping, so at most one can match at a position. -/
def matchVar : List Char → Option (List Char × List Char)
  | '%' :: 'o' :: 'r' :: 'g' :: rest => some (varOrg, rest)
  | '%' :: 'b' :: 'k' :: rest => some (varBk, rest)
  | '%' :: 'd' :: 'b' :: rest => some (varDb, rest)
  | '%' :: 'm' :: 'm' :: rest => some (varMm, rest)
  | _ => none

/-- The `NewShardTpl` parsing loop.  `acc` holds (reversed) the pending literal
chars `tpl[i:j]`; when a token matches, the pending literal (if non-empty) is
appended to `parts` followed by the token; at the end of the template any
pending literal is appended. -/
def tplParseAux : List Char → List Char → List (List Char)
  | '%' :: 'o' :: 'r' :: 'g' :: rest, acc =>
    (if acc = [] then [] else [acc.reverse]) ++ (varOrg :: tplParseAux rest [])
  | '%' :: 'b' :: 'k' :: rest, acc =>
    (if acc = [] then [] else [acc.reverse]) ++ (varBk :: tplParseAux rest [])
  | '%' :: 'd' :: 'b' :: rest, acc =>
    (if acc = [] then [] else [acc.reverse]) ++ (varDb :: tplParseAux rest [])
  | '%' :: 'm' :: 'm' :: rest, acc =>
    (if acc = [] then [] else [acc.reverse]) ++ (varMm :: tplParseAux rest [])
  | c :: rest, acc => tplParseAux rest (c :: acc)
  | [], acc => if acc = [] then [] else [acc.reverse]

/-- `NewShardTpl(tpl).parts`. -/
def tplParts (tpl : List Char) : List (List Char) := tplParseAux tpl []

/-- The scan underlying `NewShardTpl(tpl).freq[v]`: `freq[v]` is incremented
exactly when token `v` matches during the scan. -/
def tplFreqAux (v : List Char) : List Char → Nat
  | '%' :: 'o' :: 'r' :: 'g' :: rest => (if varOrg = v then 1 else 0) + tplFreqAux v rest
  | '%' :: 'b' :: 'k' :: rest => (if varBk = v then 1 else 0) + tplFreqAux v rest
  | '%' :: 'd' :: 'b' :: rest => (if varDb = v then 1 else 0) + tplFreqAux v rest
  | '%' :: 'm' :: 'm' :: rest => (if varMm = v then 1 else 0) + tplFreqAux v rest
  | _ :: rest => tplFreqAux v rest
  | [] => 0

/-- `NewShardTpl(tpl).freq[v]`. -/
def tplFreq (tpl v : List Char) : Nat := tplFreqAux v tpl

/-- `(st *ShardTpl) GetKey(db, mm)`: join the parts, substituting `%db` and
`%mm`; every other part (literals, and the `%org`/`%bk` tokens, which `GetKey`
does not substitute) is written unchanged. -/
def getKeyTpl (parts : List (List Char)) (db mm : List Char) : List Char :=
  match parts with
  | [] => []
  | p :: ps => (if p = varDb then db else if p = varMm then mm else p) ++ getKeyTpl ps db mm

/-- `(st *ShardTpl) GetKeyV2(org, bk, mm)`. -/
def getKeyV2Tpl (parts : List (List Char)) (org bk mm : List Char) : List Char :=
  match parts with
  | [] => []
  | p :: ps =>
    (if p = varOrg then org else if p = varBk then bk else if p = varMm then mm else p)
      ++ getKeyV2Tpl ps org bk mm

/-- Spec-side substitution for C4 (v1): "the original template text with each
variable token replaced by its value", reading the template left to right and
replacing each (leftmost, non-overlapping) token occurrence; the v1 variables
are `%db ↦ db` and `%mm ↦ mm`, and tokens without a v1 value stay verbatim. -/
def specSubstV1 (db mm : List Char) : List Char → List Char
  | '%' :: 'o' :: 'r' :: 'g' :: rest => varOrg ++ specSubstV1 db mm rest
  | '%' :: 'b' :: 'k' :: rest => varBk ++ specSubstV1 db mm rest
  | '%' :: 'd' :: 'b' :: rest => db ++ specSubstV1 db mm rest
  | '%' :: 'm' :: 'm' :: rest => mm ++ specSubstV1 db mm rest
  | c :: rest => c :: specSubstV1 db mm rest
  | [] => []

theorem tplParseAux_some {s v rest : List Char} (acc : List Char)
    (h : matchVar s = some (v, rest)) :
    tplParseAux s acc = (if acc = [] then [] else [acc.reverse]) ++ (v :: tplParseAux rest []) := by
  unfold matchVar at h
  split at h <;> simp_all [tplParseAux]

theorem tplParseAux_none {c : Char} {rest : List Char} (acc : List Char)
    (h : matchVar (c :: rest) = none) :
    tplParseAux (c :: rest) acc = tplParseAux rest (c :: acc) := by
  unfold matchVar at h
  split at h <;> simp_all [tplParseAux]

theorem tplParseAux_nil (acc : List Char) :
    tplParseAux [] acc = if acc = [] then [] else [acc.reverse] := rfl

theorem matchVar_some_decomp {s v rest : List Char} (h : matchVar s = some (v, rest)) :
    s = v ++ rest ∧ (v = varOrg ∨ v = varBk ∨ v = varDb ∨ v = varMm) := by
  unfold matchVar at h
  split at h <;> simp_all [varOrg, varBk, varDb, varMm]
  all_goals (rw [← h.1]; rfl)

theorem specSubstV1_some {db mm s v rest : List Char} (h : matchVar s = some (v, rest)) :
    specSubstV1 db mm s
      = (if v = varDb then db else if v = varMm then mm else v) ++ specSubstV1 db mm rest := by
  obtain ⟨hs, hv⟩ := matchVar_some_decomp h
  subst hs
  rcases hv with rfl | rfl | rfl | rfl
  · rw [show specSubstV1 db mm (varOrg ++ rest) = varOrg ++ specSubstV1 db mm rest from rfl,
      if_neg (show ¬ varOrg = varDb by decide), if_neg (show ¬ varOrg = varMm by decide)]
  · rw [show specSubstV1 db mm (varBk ++ rest) = varBk ++ specSubstV1 db mm rest from rfl,
      if_neg (show ¬ varBk = varDb by decide), if_neg (show ¬ varBk = varMm by decide)]
  · rw [show specSubstV1 db mm (varDb ++ rest) = db ++ specSubstV1 db mm rest from rfl,
      if_pos (show varDb = varDb from rfl)]
  · rw [show specSubstV1 db mm (varMm ++ rest) = mm ++ specSubstV1 db mm rest from rfl,
      if_neg (show ¬ varMm = varDb by decide), if_pos (show varMm = varMm from rfl)]

theorem specSubstV1_none {db mm : List Char} {c : Char} {rest : List Char}
    (h : matchVar (c :: rest) = none) :
    specSubstV1 db mm (c :: rest) = c :: specSubstV1 db mm rest := by
  unfold matchVar at h
  split at h <;> simp_all [specSubstV1]

theorem matchVar_some_length {s v rest : List Char} (h : matchVar s = some (v, rest)) :
    rest.length < s.length := by
  unfold matchVar at h
  split at h <;> simp_all
  all_goals omega

theorem matchVar_db_pre (s : List Char) : matchVar (varDb ++ s) = some (varDb, s) := rfl

theorem matchVar_mm_pre (s : List Char) : matchVar (varMm ++ s) = some (varMm, s) := rfl

theorem getKeyTpl_append (xs ys : List (List Char)) (db mm : List Char) :
    getKeyTpl (xs ++ ys) db mm = getKeyTpl xs db mm ++ getKeyTpl ys db mm := by
  induction xs with
  | nil => simp [getKeyTpl]
  | cons p ps ih => simp [getKeyTpl, ih]

theorem getKeyTpl_lit {L db mm : List Char} (h1 : L ≠ varDb) (h2 : L ≠ varMm) :
    getKeyTpl [L] db mm = L := by
  simp [getKeyTpl, h1, h2]

theorem notDb_of_matchVar_none {L s : List Char} (h : matchVar (L ++ s) = none) :
    L ≠ varDb ∧ L ≠ varMm := by
  constructor
  · rintro rfl
    rw [matchVar_db_pre] at h
    simp at h
  · rintro rfl
    rw [matchVar_mm_pre] at h
    simp at h

theorem tplParse_render_aux (db mm : List Char) :
    ∀ (n : Nat) (s acc : List Char), s.length ≤ n →
      (acc = [] ∨ matchVar (acc.reverse ++ s) = none) →
      getKeyTpl (tplParseAux s acc) db mm
        = (if acc = [] then [] else acc.reverse) ++ specSubstV1 db mm s := by
  have emit : ∀ (acc : List Char), (acc = [] ∨ matchVar (acc.reverse ++ []) = none) →
      getKeyTpl (if acc = [] then [] else [acc.reverse]) db mm
        = (if acc = [] then [] else acc.reverse) := by
    intro acc hinv
    by_cases ha : acc = []
    · simp [ha, getKeyTpl]
    · have hm := hinv.resolve_left ha
      obtain ⟨h1, h2⟩ := notDb_of_matchVar_none hm
      simp only [if_neg ha]
      exact getKeyTpl_lit h1 h2
  intro n
  induction n with
  | zero =>
    intro s acc hs hinv
    have : s = [] := List.eq_nil_of_length_eq_zero (by omega)
    subst this
    rw [tplParseAux_nil]
    rw [show specSubstV1 db mm [] = [] from rfl]
    rw [List.append_nil]
    exact emit acc hinv
  | succ n ih =>
    intro s acc hs hinv
    cases hmv : matchVar s with
    | some pr =>
      obtain ⟨v, rest⟩ := pr
      rw [tplParseAux_some acc hmv, getKeyTpl_append]
      have hrest : rest.length ≤ n := by
        have := matchVar_some_length hmv
        omega
      have hrec := ih rest [] hrest (Or.inl rfl)
      simp at hrec
      have hemit : getKeyTpl (if acc = [] then [] else [acc.reverse]) db mm
          = (if acc = [] then [] else acc.reverse) := by
        by_cases ha : acc = []
        · simp [ha, getKeyTpl]
        · have hm := hinv.resolve_left ha
          obtain ⟨h1, h2⟩ := notDb_of_matchVar_none hm
          simp only [if_neg ha]
          exact getKeyTpl_lit h1 h2
      rw [hemit]
      rw [show getKeyTpl (v :: tplParseAux rest []) db mm
            = (if v = varDb then db else if v = varMm then mm else v)
              ++ getKeyTpl (tplParseAux rest []) db mm from rfl]
      rw [hrec, specSubstV1_some hmv]
    | none =>
      cases s with
      | nil =>
        rw [tplParseAux_nil]
        rw [show specSubstV1 db mm [] = [] from rfl]
        rw [List.append_nil]
        exact emit acc hinv
      | cons c rest =>
        rw [tplParseAux_none acc hmv]
        have hinv2 : (c :: acc) = [] ∨ matchVar ((c :: acc).reverse ++ rest) = none := by
          right
          rw [List.reverse_cons, List.append_assoc]
          rcases hinv with ha | hm
          · subst ha
            simpa using hmv
          · simpa using hm
        have hrec := ih rest (c :: acc) (by simp only [List.length_cons] at hs; omega) hinv2
        simp only [List.cons_ne_nil, if_neg, List.reverse_cons, not_false_iff] at hrec
        rw [hrec, specSubstV1_none hmv]
        by_cases ha : acc = []
        · subst ha
          simp
        · simp only [if_neg ha, List.append_assoc, List.cons_append, List.nil_append]

/-- Rendering the parsed template (the `parts` of `NewShardTpl`) with `GetKey`
equals the simultaneous substitution of the variable tokens in the original
template text. -/
theorem tplParse_render (tpl db mm : List Char) :
    getKeyTpl (tplParts tpl) db mm = specSubstV1 db mm tpl := by
  have := tplParse_render_aux db mm tpl.length tpl [] le_rfl (Or.inl rfl)
  simpa [tplParts] using this

/-! ### internal/hash (part_000): `NewConsistentHash`

The consistent-hash ring itself (`stathat.com/c/consistent`) is an external
library; what the code under verification controls is which strings are added
to the ring (`consistent.Add`), with how many virtual replicas
(`NumberOfReplicas = 256`, set before any `Add`), and the reverse map
`mapToIdx`.  The model records exactly those effects: `entries` is the sequence
of `Add` calls paired with the replica count in force, and `mapToIdx` is the Go
map (later assignments shadow earlier ones, so lookup takes the most recent
binding, modelled by prepending and `find?`). -/

/-- The ring-entry string for index `idx` (the `switch hashKey` in
`NewConsistentHash`): `"exi" ↦ "|" + itoa(idx)`, `"idx" ↦ itoa(idx)`, and any
other string has every `%idx` replaced by `itoa(idx)`. -/
def nodeStr (hashKey : List Char) (i : Nat) : List Char :=
  if hashKey = ['e', 'x', 'i'] then '|' :: itoa i
  else if hashKey = ['i', 'd', 'x'] then itoa i
  else replAll varIdxT (itoa i) hashKey

structure RingModel where
  entries : List (List Char × Nat)
  mapToIdx : List (List Char × Nat)

/-- Lookup in the modelled Go map (most recent binding first). -/
def lookupIdx (m : List (List Char × Nat)) (k : List Char) : Option Nat :=
  (m.find? (fun e => e.1 == k)).map (fun e => e.2)

/-- `NewConsistentHash(nodeTotal, hashKey)`: for `idx = 0 … nodeTotal-1`,
add `nodeStr(idx)` to the ring (with 256 replicas) and set
`mapToIdx[nodeStr(idx)] = idx`. -/
def newConsistentHash (nodeTotal : Nat) (hashKey : List Char) : RingModel :=
  (List.range nodeTotal).foldl
    (fun m i =>
      { entries := m.entries ++ [(nodeStr hashKey i, 256)],
        mapToIdx := (nodeStr hashKey i, i) :: m.mapToIdx })
    { entries := [], mapToIdx := [] }

theorem newConsistentHash_spec (hashKey : List Char) :
    ∀ N : Nat,
      (newConsistentHash N hashKey).entries
          = (List.range N).map (fun i => (nodeStr hashKey i, 256))
        ∧ (newConsistentHash N hashKey).mapToIdx
          = ((List.range N).map (fun i => (nodeStr hashKey i, i))).reverse := by
  have step : ∀ N : Nat, newConsistentHash (N + 1) hashKey
      = { entries := (newConsistentHash N hashKey).entries ++ [(nodeStr hashKey N, 256)],
          mapToIdx := (nodeStr hashKey N, N) :: (newConsistentHash N hashKey).mapToIdx } := by
    intro N
    unfold newConsistentHash
    rw [List.range_succ, List.foldl_append]
    rfl
  intro N
  induction N with
  | zero => constructor <;> rfl
  | succ N ih =>
    rw [step N, List.range_succ]
    constructor
    · simp [ih.1]
    · simp only [List.map_append, List.reverse_append, ih.2]
      rfl

theorem varIdxT_ne_nil : varIdxT ≠ [] := by decide

theorem nodeStr_inj {hashKey : List Char}
    (hv : hashKey = ['i', 'd', 'x'] ∨ hashKey = ['e', 'x', 'i']
          ∨ containsL hashKey varIdxT = true) :
    ∀ i j : Nat, nodeStr hashKey i = nodeStr hashKey j → i = j := by
  intro i j h
  unfold nodeStr at h
  by_cases he : hashKey = ['e', 'x', 'i']
  · rw [if_pos he, if_pos he] at h
    injection h with _ h2
    exact itoa_inj _ _ h2
  · rw [if_neg he, if_neg he] at h
    by_cases hi : hashKey = ['i', 'd', 'x']
    · rw [if_pos hi, if_pos hi] at h
      exact itoa_inj _ _ h
    · rw [if_neg hi, if_neg hi] at h
      have hc : containsL hashKey varIdxT = true := by
        rcases hv with h' | h' | h'
        · exact absurd h' hi
        · exact absurd h' he
        · exact h'
      have hocc := countOcc_pos_of_contains varIdxT_ne_nil hc
      exact itoa_inj _ _ (replAll_inj_rep varIdxT_ne_nil hashKey (itoa i) (itoa j) hocc h)

/-! ### internal/escape/escape.go -/

/-- `measurementEscapeCodes`. -/
def measurementEscapeCodes : List Char := [',', ' ']

/-- `tagEscapeCodes`. -/
def tagEscapeCodes : List Char := [',', ' ', '=']

/-- `NeedMeasurementEscape(name)`: some escape code occurs in `name`. -/
def needMeasurementEscape (name : List Char) : Bool :=
  measurementEscapeCodes.any (fun c => name.contains c)

/-- `NeedTagsEscape(tags)`: some tag has an escape code in its key or value. -/
def needTagsEscape (tags : List (List Char × List Char)) : Bool :=
  tags.any (fun t => tagEscapeCodes.any (fun c => t.1.contains c || t.2.contains c))

/-- `NeedEscape(name, tags)`. -/
def needEscape (name : List Char) (tags : List (List Char × List Char)) : Bool :=
  needMeasurementEscape name || needTagsEscape tags

/-! ### cmd/transfer/exporter.go: `writeBucket`

One result-set entry (measurement name, tags, field, field type, cursor
values).  `writeBucket` iterates the result set; the per-node framed streams
are modelled by the function from node index to the sequence of series records
written to that node's bucket writer (`bws[nodeIndex].WriteSeries(...)`).
The consistent hash is the parameter `route` (`h.Get`), and `prChans`' key set
is the parameter `requested`. -/

structure SeriesRec where
  name : List Char
  tags : List (List Char × List Char)
  field : List Char
  fieldType : Nat
  values : List (Int × Int)
deriving DecidableEq

/-- The free function `hash.GetKey(db, meas) = db + "," + meas` used by
`writeBucket` to build the routing key. -/
def getKeyFree (db mm : List Char) : List Char := db ++ [','] ++ mm

/-- One iteration of the `rs.Next()` loop in `writeBucket`: discard on
`escape.NeedEscape`, else route and, when the node is requested (`prChans`),
append the series to that node's stream. -/
def wbStep (db : List Char) (requested : List Nat) (route : List Char → Nat)
    (streams : Nat → List SeriesRec) (s : SeriesRec) : Nat → List SeriesRec :=
  if needEscape s.name s.tags then streams
  else if requested.contains (route (getKeyFree db s.name)) then
    fun k => if k = route (getKeyFree db s.name) then streams k ++ [s] else streams k
  else streams

/-- `writeBucket` over the whole result set. -/
def writeBucket (db : List Char) (requested : List Nat) (route : List Char → Nat)
    (series : List SeriesRec) : Nat → List SeriesRec :=
  series.foldl (wbStep db requested route) (fun _ => [])

/-- The selection predicate that `writeBucket` realizes for node `n`. -/
def wbSelect (db : List Char) (requested : List Nat) (route : List Char → Nat)
    (n : Nat) (s : SeriesRec) : Bool :=
  !needEscape s.name s.tags && (route (getKeyFree db s.name) == n) && requested.contains n

theorem wbStep_esc {db : List Char} {requested : List Nat} {route : List Char → Nat}
    {streams : Nat → List SeriesRec} {s : SeriesRec} (h : needEscape s.name s.tags = true) :
    wbStep db requested route streams s = streams := by
  unfold wbStep
  rw [if_pos h]

theorem wbStep_hit {db : List Char} {requested : List Nat} {route : List Char → Nat}
    {streams : Nat → List SeriesRec} {s : SeriesRec} (hesc : needEscape s.name s.tags = false)
    (hreq : requested.contains (route (getKeyFree db s.name)) = true) :
    wbStep db requested route streams s
      = fun k => if k = route (getKeyFree db s.name) then streams k ++ [s] else streams k := by
  unfold wbStep
  rw [if_neg (by rw [hesc]; exact Bool.false_ne_true), if_pos hreq]

theorem wbStep_miss {db : List Char} {requested : List Nat} {route : List Char → Nat}
    {streams : Nat → List SeriesRec} {s : SeriesRec} (hesc : needEscape s.name s.tags = false)
    (hreq : requested.contains (route (getKeyFree db s.name)) = false) :
    wbStep db requested route streams s = streams := by
  unfold wbStep
  rw [if_neg (by rw [hesc]; exact Bool.false_ne_true),
    if_neg (by rw [hreq]; exact Bool.false_ne_true)]

theorem writeBucket_foldl (db : List Char) (requested : List Nat) (route : List Char → Nat) :
    ∀ (series : List SeriesRec) (init : Nat → List SeriesRec) (n : Nat),
      series.foldl (wbStep db requested route) init n
        = init n ++ series.filter (wbSelect db requested route n) := by
  intro series
  induction series with
  | nil => intro init n; simp
  | cons s rest ih =>
    intro init n
    rw [List.foldl_cons, ih]
    cases hesc : needEscape s.name s.tags with
    | true =>
      rw [wbStep_esc hesc, List.filter_cons]
      simp [wbSelect, hesc]
    | false =>
      cases hreq : requested.contains (route (getKeyFree db s.name)) with
      | false =>
        rw [wbStep_miss hesc hreq, List.filter_cons]
        have hmem : route (getKeyFree db s.name) ∉ requested := by simpa using hreq
        by_cases hn : route (getKeyFree db s.name) = n
        · subst hn
          simp [wbSelect, hesc, hmem]
        · simp [wbSelect, hesc, hn]
      | true =>
        rw [wbStep_hit hesc hreq]
        have hmem : route (getKeyFree db s.name) ∈ requested := by simpa using hreq
        by_cases hn : n = route (getKeyFree db s.name)
        · simp only [if_pos hn, List.filter_cons]
          have hsel : wbSelect db requested route n s = true := by
            simp [wbSelect, hesc, hn, hmem]
          rw [hsel]
          simp
        · simp only [if_neg hn, List.filter_cons]
          have hsel : wbSelect db requested route n s = false := by
            simp [wbSelect, hesc]
            intro h'
            exact absurd h'.symm hn
          rw [hsel]
          simp

/-! ### cmd/transfer (part_006): shard-group planner

Times are Unix nanoseconds as `Int` (`time.Time` with nanosecond precision;
`.UTC()` only changes presentation).  Go's `Time.Truncate(d)` rounds the time
down to a multiple of `d` measured from the zero time 0001-01-01T00:00:00 UTC,
not from the Unix epoch, so the offset between the two epochs matters whenever
`d` does not divide it. -/

/-- Nanoseconds from Go's zero time (0001-01-01T00:00:00Z) to the Unix epoch:
`unixToInternal = (1969*365 + 1969/4 − 1969/100 + 1969/400) * 86400 =
62135596800` seconds (719162 whole days). -/
def unixToInternalNanos : Int := 62135596800000000000

/-- `t.Truncate(sd)` for `t` holding `u` Unix nanoseconds: for `sd ≤ 0` Go
returns `t` unchanged; otherwise it subtracts the remainder (in `[0, sd)`) of
the absolute, zero-time-based instant modulo `sd`. -/
def goTruncate (sd u : Int) : Int :=
  if sd ≤ 0 then u else u - (u + unixToInternalNanos) % sd

structure ShardGroup where
  startTime : Int
  endTime : Int
deriving DecidableEq, Repr

/-- `makeShardGroupsForDuration(min, max, sd)`: consecutive windows of width
`sd` from `min.Truncate(sd)` up to `max.Truncate(sd).Add(sd)`.  (The Go loop
fills a slice pre-sized to `(end-start)/sd`, which is exactly the iteration
count since both bounds are truncation-aligned.) -/
def makeShardGroupsForDuration (mn mx sd : Int) : List ShardGroup :=
  (List.range (((goTruncate sd mx + sd - goTruncate sd mn) / sd).toNat)).map
    (fun (i : Nat) => { startTime := goTruncate sd mn + (i : Int) * sd,
                        endTime := goTruncate sd mn + (i : Int) * sd + sd })

/-- `meta.ShardGroupInfo.Overlaps(min, max)` from the influxdb meta library:
`!sgi.StartTime.After(max) && sgi.EndTime.After(min)`. -/
def sgOverlaps (g : ShardGroup) (mn mx : Int) : Bool :=
  decide (g.startTime ≤ mx) && decide (mn < g.endTime)

/-- `hasShardsGroupForTimeRange(groups, min, max)`. -/
def hasShardsGroupForTimeRange (groups : List ShardGroup) (mn mx : Int) : Bool :=
  groups.any (fun g => sgOverlaps g mn mx)

/-- `planShardGroups(sourceShards, sd, start, end)`: tile between the first
group's start and the last group's end, keep the windows that intersect
`[start, end]` (`g.StartTime > end || g.EndTime <= start` skips) and that
overlap some source group on `[g.StartTime, g.EndTime.Add(-1)]`. -/
def planShardGroups (src : List ShardGroup) (sd s e : Int) : List ShardGroup :=
  match src with
  | [] => []
  | g0 :: gs =>
    (makeShardGroupsForDuration g0.startTime (gs.getLastD g0).endTime sd).filter
      (fun g =>
        !(decide (g.startTime > e) || decide (g.endTime ≤ s)) &&
        hasShardsGroupForTimeRange (g0 :: gs) g.startTime (g.endTime - 1))

theorem goTruncate_dvd {sd : Int} (hsd : 0 < sd) (u : Int) :
    sd ∣ (goTruncate sd u + unixToInternalNanos) := by
  unfold goTruncate
  rw [if_neg (by omega)]
  refine ⟨(u + unixToInternalNanos) / sd, ?_⟩
  have := Int.ediv_add_emod (u + unixToInternalNanos) sd
  linarith

theorem goTruncate_le {sd : Int} (hsd : 0 < sd) (u : Int) : goTruncate sd u ≤ u := by
  unfold goTruncate
  rw [if_neg (by omega)]
  have := Int.emod_nonneg (u + unixToInternalNanos) (by omega : sd ≠ 0)
  omega

theorem lt_goTruncate_add {sd : Int} (hsd : 0 < sd) (u : Int) : u < goTruncate sd u + sd := by
  unfold goTruncate
  rw [if_neg (by omega)]
  have := Int.emod_lt_of_pos (u + unixToInternalNanos) hsd
  omega

theorem span_dvd {sd : Int} (hsd : 0 < sd) (mn mx : Int) :
    sd ∣ (goTruncate sd mx + sd - goTruncate sd mn) := by
  have h1 := goTruncate_dvd hsd mx
  have h2 := goTruncate_dvd hsd mn
  have : goTruncate sd mx + sd - goTruncate sd mn
      = ((goTruncate sd mx + unixToInternalNanos) - (goTruncate sd mn + unixToInternalNanos))
        + sd := by ring
  rw [this]
  exact dvd_add (dvd_sub h1 h2) dvd_rfl

theorem mem_makeShardGroups {mn mx sd : Int} {g : ShardGroup} :
    g ∈ makeShardGroupsForDuration mn mx sd ↔
      ∃ i : Nat, (i : Int) < (goTruncate sd mx + sd - goTruncate sd mn) / sd ∧
        g = { startTime := goTruncate sd mn + (i : Int) * sd,
              endTime := goTruncate sd mn + (i : Int) * sd + sd } := by
  unfold makeShardGroupsForDuration
  constructor
  · intro hg
    obtain ⟨i, hi, hgi⟩ := List.mem_map.mp hg
    exact ⟨i, Int.lt_toNat.mp (List.mem_range.mp hi), hgi.symm⟩
  · rintro ⟨i, hi, rfl⟩
    exact List.mem_map.mpr ⟨i, List.mem_range.mpr (Int.lt_toNat.mpr hi), rfl⟩

theorem makeShardGroups_pairwise (mn mx sd : Int) (hsd : 0 < sd) :
    List.Pairwise (fun a b => a.endTime ≤ b.startTime)
      (makeShardGroupsForDuration mn mx sd) := by
  unfold makeShardGroupsForDuration
  rw [List.pairwise_map]
  refine List.Pairwise.imp ?_ (List.pairwise_lt_range _)
  intro i j hij
  show goTruncate sd mn + (i : Int) * sd + sd ≤ goTruncate sd mn + (j : Int) * sd
  have h1 : (i : Int) + 1 ≤ (j : Int) := by exact_mod_cast hij
  nlinarith

theorem makeShardGroups_cover {mn mx sd : Int} (hsd : 0 < sd) :
    ∀ x : Int, goTruncate sd mn ≤ x → x < goTruncate sd mx + sd →
      ∃ g ∈ makeShardGroupsForDuration mn mx sd, g.startTime ≤ x ∧ x < g.endTime := by
  intro x hlo hhi
  have hq0 : 0 ≤ (x - goTruncate sd mn) / sd := Int.ediv_nonneg (by omega) (by omega)
  have hdecomp := Int.ediv_add_emod (x - goTruncate sd mn) sd
  have hr0 : 0 ≤ (x - goTruncate sd mn) % sd :=
    Int.emod_nonneg (x - goTruncate sd mn) (by omega)
  have hrlt : (x - goTruncate sd mn) % sd < sd :=
    Int.emod_lt_of_pos (x - goTruncate sd mn) hsd
  have hspan_dvd : sd ∣ (goTruncate sd mx + sd - goTruncate sd mn) := span_dvd hsd mn mx
  have hspan_eq : (goTruncate sd mx + sd - goTruncate sd mn) / sd * sd
      = goTruncate sd mx + sd - goTruncate sd mn := Int.ediv_mul_cancel hspan_dvd
  refine ⟨{ startTime := goTruncate sd mn + ((((x - goTruncate sd mn) / sd).toNat : Nat) : Int) * sd,
            endTime := goTruncate sd mn + ((((x - goTruncate sd mn) / sd).toNat : Nat) : Int) * sd + sd },
    ?_, ?_, ?_⟩
  · rw [mem_makeShardGroups]
    refine ⟨((x - goTruncate sd mn) / sd).toNat, ?_, rfl⟩
    rw [Int.toNat_of_nonneg hq0]
    have hmul : (x - goTruncate sd mn) / sd * sd
        < (goTruncate sd mx + sd - goTruncate sd mn) / sd * sd := by
      rw [hspan_eq]
      nlinarith
    exact lt_of_mul_lt_mul_right hmul (by omega)
  · show goTruncate sd mn + ((((x - goTruncate sd mn) / sd).toNat : Nat) : Int) * sd ≤ x
    rw [Int.toNat_of_nonneg hq0]
    nlinarith
  · show x < goTruncate sd mn + ((((x - goTruncate sd mn) / sd).toNat : Nat) : Int) * sd + sd
    rw [Int.toNat_of_nonneg hq0]
    nlinarith

/-! ### cmd/transfer/importer.go: `newImporter` retention-policy spec and
`createDatabase`

`MetaClient` operations are the external catalog library; the model keeps
exactly the state the decision in `createDatabase` reads: whether the target
database exists (`Database(db) == nil`) and the result of looking up the named
retention policy in it (`RetentionPolicy(db, rp.Name)`). -/

/-- `time.Hour` in nanoseconds. -/
def hourNanos : Int := 3600000000000

structure RetentionPolicySpec where
  name : List Char
  shardGroupDuration : Int
  duration : Option Int
  replicaN : Option Int
deriving DecidableEq

structure RetentionPolicyInfo where
  duration : Int
  replicaN : Int
  shardGroupDuration : Int
deriving DecidableEq

/-- The `meta.RetentionPolicySpec` built by `newImporter`:
`{Name: rp, ShardGroupDuration: sd}`, with `Duration = &d` exactly when
`d >= time.Hour` (and `ReplicaN` never set). -/
def mkImporterRpSpec (rp : List Char) (sd d : Int) : RetentionPolicySpec :=
  { name := rp, shardGroupDuration := sd, replicaN := none,
    duration := if hourNanos ≤ d then some d else none }

/-- The `nonmatchingRp` condition of `createDatabase` (evaluated only when the
lookup returned an RP): mismatch on `Duration` (when the spec carries one),
on `ReplicaN` (when the spec carries one), or on `ShardGroupDuration`. -/
def nonmatchingRp (spec : RetentionPolicySpec) (rpi : RetentionPolicyInfo) : Bool :=
  (match spec.duration with
   | some du => decide (rpi.duration ≠ du)
   | none => false) ||
  (match spec.replicaN with
   | some rn => decide (rpi.replicaN ≠ rn)
   | none => false) ||
  decide (rpi.shardGroupDuration ≠ spec.shardGroupDuration)

/-- `(i *importer) createDatabase(rp)`: when the database does not exist,
create it together with the retention policy; otherwise fail fast iff the
named retention policy exists and is non-matching, else create-or-reuse it. -/
def createDatabase (dbExists : Bool) (existingRp : Option RetentionPolicyInfo)
    (spec : RetentionPolicySpec) : Except (List Char) Unit :=
  if !dbExists then Except.ok ()
  else
    match existingRp with
    | some rpi =>
      if nonmatchingRp spec rpi then
        Except.error (("retention policy ").data ++ spec.name
          ++ (" already exists with different parameters").data)
      else Except.ok ()
    | none => Except.ok ()

/-! ### cmd/transfer/importer.go: `(i *importWorker) Write` error path

State visible to `Write`: whether the shard writer is open (`i.sh != nil`),
whether the series writer is open, the current shard id, the set of existing
target shard directories, and the shard-group records present in the target
catalog (`MetaClient`).  `removeShardGroup(rp, shardID)` performs only
`os.RemoveAll(<dataDir>/<db>/<rp>/<shardID>)`. -/

structure ImportState where
  shOpen : Bool
  swOpen : Bool
  currentShard : Nat
  dirs : List (List Char)
  metaGroups : List Nat
deriving DecidableEq

/-- `filepath.Join(i.dataDir, i.db, rp, strconv.Itoa(int(shardID)))`. -/
def shardDirPath (dataDir db rp : List Char) (shardID : Nat) : List Char :=
  dataDir ++ ['/'] ++ db ++ ['/'] ++ rp ++ ['/'] ++ itoa shardID

/-- `(i *importWorker) Write(key, values)`, parameterized by whether the shard
writer reports an error (`i.sh.Err()`, surfaced as `some msg`).  On error:
`el.Add(i.sh.Err())`; `CloseShardGroup()` (closes the series writer and the
shard writer, sets `i.sh = nil`); `removeShardGroup` (removes the shard
directory on disk); `i.currentShard = 0`; the aggregated error list is
returned.  Nothing touches the catalog's shard-group records. -/
def importWrite (dataDir db rp : List Char) (st : ImportState)
    (writeErr : Option (List Char)) : ImportState × Except (List (List Char)) Unit :=
  if !st.shOpen then (st, Except.error [("importer not currently writing a shard").data])
  else
    match writeErr with
    | some msg =>
      ({ st with
          shOpen := false
          swOpen := false
          currentShard := 0
          dirs := st.dirs.filter
            (fun dr => !(dr == shardDirPath dataDir db rp st.currentShard)) },
        Except.error [msg])
    | none => (st, Except.ok ())

/-! ### cmd/deletetsm/command.go: `process`

A segment block is `(compositeKey, minTime, maxTime, block-bytes)`.  The
parsing of the composite key (`tsm1.SeriesAndFieldFromCompositeKey` +
`models.ParseKey`) and the printable-token check (`models.ValidKeyTokens`) are
library functions of the storage engine, passed in as parameters `parseMeas`
(the parsed measurement of a composite key) and `validTokens`.  Filesystem and
writer calls are recorded as an action trace. -/

structure TSMBlock where
  key : List Char
  minTime : Int
  maxTime : Int
  block : List Nat
deriving DecidableEq

inductive FsAction where
  | removeAll (p : List Char)
  | createFile (p : List Char)
  | writeBlock (b : TSMBlock)
  | writeIdx
  | renameFile (src dst : List Char)
deriving DecidableEq

/-- The block-iterator loop of `process`: a block is skipped iff its parsed
measurement equals `cmd.measurement` or (`cmd.sanitize` and the key fails
`models.ValidKeyTokens`); otherwise `w.WriteBlock(key, minTime, maxTime,
block)` writes it unchanged. -/
def processBlocks (parseMeas : List Char → List Char) (validTokens : List Char → Bool)
    (m : List Char) (sanitize : Bool) : List TSMBlock → List FsAction
  | [] => []
  | b :: rest =>
    if parseMeas b.key == m || (sanitize && !validTokens b.key) then
      processBlocks parseMeas validTokens m sanitize rest
    else
      FsAction.writeBlock b :: processBlocks parseMeas validTokens m sanitize rest

/-- `(cmd *command) process(path)`: remove stale temporaries, create the
rewrite file `path+".rewriting.tmp"`, copy the kept blocks, write the index,
and rename the rewrite file over `path`. -/
def deletetsmProcess (parseMeas : List Char → List Char) (validTokens : List Char → Bool)
    (m : List Char) (sanitize : Bool) (path : List Char) (blocks : List TSMBlock) :
    List FsAction :=
  FsAction.removeAll (path ++ (".rewriting.tmp").data)
    :: FsAction.removeAll (path ++ (".rewriting.tmp.idx.tmp").data)
    :: FsAction.createFile (path ++ (".rewriting.tmp").data)
    :: (processBlocks parseMeas validTokens m sanitize blocks
        ++ [FsAction.writeIdx, FsAction.renameFile (path ++ (".rewriting.tmp").data) path])

/-- The blocks written (in order) by an action trace. -/
def writtenBlocks (acts : List FsAction) : List TSMBlock :=
  acts.filterMap (fun a =>
    match a with
    | FsAction.writeBlock b => some b
    | _ => none)

/-! ### cmd/transfer/command.go: `validate` -/

def minInt64 : Int := -9223372036854775808

def maxInt64 : Int := 9223372036854775807

/-- `(cmd *command) validate(tf)` after flag parsing: `startNanos`/`endNanos`
are the `UnixNano()` values of the parsed RFC3339 `--start`/`--end` flags
(`none` when the flag is empty, in which case the sentinels `math.MinInt64` /
`math.MaxInt64` are used).  The checks run in source order and the first
failing one returns its error. -/
def validateTransfer (startNanos endNanos : Option Int) (worker nodeTotal : Int)
    (nodeIdxs : List Int) (hashKey shardKey : List Char) : Except (List Char) Unit :=
  let st := match startNanos with
    | some v => v
    | none => minInt64
  let et := match endNanos with
    | some v => v
    | none => maxInt64
  if st ≠ 0 ∧ et ≠ 0 ∧ et < st then Except.error (("end time before start time").data)
  else if worker < 0 then Except.error (("worker is invalid").data)
  else if nodeTotal ≤ 0 then Except.error (("node-total is invalid").data)
  else if nodeIdxs.any (fun i => decide (i < 0) || decide (i ≥ nodeTotal)) then
    Except.error (("node-index is invalid").data)
  else if hashKey ≠ ['i', 'd', 'x'] ∧ hashKey ≠ ['e', 'x', 'i']
      ∧ containsL hashKey varIdxT = false then
    Except.error (("hash-key is invalid, require idx, exi or template containing %idx").data)
  else if containsL shardKey varDb = false ∧ containsL shardKey varMm = false then
    Except.error (("shard-key is invalid, require template containing %db or %mm").data)
  else Except.ok ()

/-! ### cmd/hashdist/command.go: the `--file` scan loop

`ch.Get` (the consistent-hash lookup) is abstracted as `get`; the shard
template is the parsed `parts` of `NewShardTpl(cmd.shardKey)` rendered with
`GetKey` / `GetKeyV2`. -/

inductive HdVersion where
  | v1
  | v2
deriving DecidableEq

/-- One line of the scanner loop: under v1, `strings.Cut(line, sep)`
contributes `GetKey(db, mm)` when the separator was found, else a warning;
under v2, `strings.Split(line, sep)` contributes `GetKeyV2(items[0], items[1],
items[2])` when it yields exactly three items (`len(items) == 0 ||
len(items) != 3` warns), else a warning.  `some n` is a hit for node `n`. -/
def hashdistLine (ver : HdVersion) (sep : List Char) (get : List Char → Nat)
    (parts : List (List Char)) (line : List Char) : Option Nat :=
  match ver with
  | HdVersion.v1 =>
    match cutL line sep with
    | some pr => some (get (getKeyTpl parts pr.1 pr.2))
    | none => none
  | HdVersion.v2 =>
    match splitOnL sep line with
    | [o, b, m] => some (get (getKeyV2Tpl parts o b m))
    | _ => none

/-- One scanner iteration over the accumulated `(dist, tHits, warn)`. -/
def hdStep (ver : HdVersion) (sep : List Char) (get : List Char → Nat)
    (parts : List (List Char)) (acc : (Nat → Nat) × Nat × Nat) (line : List Char) :
    (Nat → Nat) × Nat × Nat :=
  match hashdistLine ver sep get parts line with
  | some n => (fun k => if k = n then acc.1 k + 1 else acc.1 k, acc.2.1 + 1, acc.2.2)
  | none => (acc.1, acc.2.1, acc.2.2 + 1)

/-- The whole scan: `dist[n] += 1` and `tHits += 1` per hit, `warn += 1` per
warned line.  Result `(dist, tHits, warn)`. -/
def hashdistFold (ver : HdVersion) (sep : List Char) (get : List Char → Nat)
    (parts : List (List Char)) (lines : List (List Char)) : (Nat → Nat) × Nat × Nat :=
  lines.foldl (hdStep ver sep get parts) (fun _ => 0, 0, 0)

/-! ## Claim theorems -/

/-- C4: Shard-key template parsing and rendering are mutually correct: for
every template, rendering the parsed template equals the original template
text with each variable token replaced by its value (tokens without a v1
value stay verbatim); in particular, parsing `"shard-%mm-%db-%mm-%db-key"`
yields parts `["shard-","%mm","-","%db","-","%mm","-","%db","-key"]` with
`freq(%db) = 2` and `freq(%mm) = 2`, and rendering with `db = "database"`,
`mm = "measurement"` yields
`"shard-measurement-database-measurement-database-key"`. -/
theorem c4_template_roundtrip :
    (∀ tpl db mm : List Char, getKeyTpl (tplParts tpl) db mm = specSubstV1 db mm tpl)
    ∧ tplParts (("shard-%mm-%db-%mm-%db-key").data)
        = [("shard-").data, varMm, ("-").data, varDb, ("-").data, varMm, ("-").data, varDb,
           ("-key").data]
    ∧ tplFreq (("shard-%mm-%db-%mm-%db-key").data) varDb = 2
    ∧ tplFreq (("shard-%mm-%db-%mm-%db-key").data) varMm = 2
    ∧ getKeyTpl (tplParts (("shard-%mm-%db-%mm-%db-key").data)) (("database").data)
        (("measurement").data)
      = ("shard-measurement-database-measurement-database-key").data :=
  ⟨tplParse_render, by decide, by decide, by decide, by decide⟩

/-- C1 (amended): a series emitted by the result set is discarded exactly when
it needs escaping or its routed node is not among the requested targets; every
other series is appended verbatim (the whole record) to exactly the stream of
its routed node, in result-set order.  The claim's original "iff it needs no
escaping" fails when the routed node is unrequested, see the counterexample. -/
theorem c1_writeBucket_streams (db : List Char) (requested : List Nat)
    (route : List Char → Nat) (series : List SeriesRec) :
    (∀ n : Nat, writeBucket db requested route series n
        = series.filter (wbSelect db requested route n))
    ∧ (∀ s ∈ series, needEscape s.name s.tags = true →
        ∀ k : Nat, s ∉ writeBucket db requested route series k)
    ∧ (∀ s ∈ series, needEscape s.name s.tags = false →
        route (getKeyFree db s.name) ∈ requested →
        s ∈ writeBucket db requested route series (route (getKeyFree db s.name))) := by
  have hstreams : ∀ n : Nat, writeBucket db requested route series n
      = series.filter (wbSelect db requested route n) := by
    intro n
    unfold writeBucket
    rw [writeBucket_foldl]
    simp
  refine ⟨hstreams, ?_, ?_⟩
  · intro s hs hesc k hmem
    rw [hstreams k] at hmem
    have := (List.mem_filter.mp hmem).2
    simp [wbSelect, hesc] at this
  · intro s hs hesc hreq
    rw [hstreams (route (getKeyFree db s.name))]
    rw [List.mem_filter]
    refine ⟨hs, ?_⟩
    simp [wbSelect, hesc, hreq]

/-- C1 counterexample: with node total 2 and only node 1 requested
(`transfer --node-total=2 --node-index=1`), a series `cpu` (no tags) that
needs no escaping but routes to node 0 is written to no target stream,
refuting "written to a target stream if and only if it needs no escaping". -/
theorem c1_escape_routing_cex :
    needEscape (("cpu").data) [] = false
    ∧ writeBucket (("db").data) [1] (fun _ => 0)
        [{ name := ("cpu").data, tags := [], field := ("v").data, fieldType := 0,
           values := [] }] 1 = []
    ∧ writeBucket (("db").data) [1] (fun _ => 0)
        [{ name := ("cpu").data, tags := [], field := ("v").data, fieldType := 0,
           values := [] }] 0 = [] := by
  refine ⟨by decide, by decide, by decide⟩

/-- The Bool mismatch test of `createDatabase` as a proposition. -/
theorem nonmatchingRp_iff (spec : RetentionPolicySpec) (rpi : RetentionPolicyInfo) :
    nonmatchingRp spec rpi = true ↔
      ((∃ du, spec.duration = some du ∧ rpi.duration ≠ du)
        ∨ (∃ rn, spec.replicaN = some rn ∧ rpi.replicaN ≠ rn)
        ∨ rpi.shardGroupDuration ≠ spec.shardGroupDuration) := by
  unfold nonmatchingRp
  cases hd : spec.duration with
  | none =>
    cases hr : spec.replicaN with
    | none => simp [hd, hr]
    | some rn => simp [hd, hr]
  | some du =>
    cases hr : spec.replicaN with
    | none => simp [hd, hr]
    | some rn =>
      simp [hd, hr]
      tauto

theorem createDatabase_false (erp : Option RetentionPolicyInfo) (spec : RetentionPolicySpec) :
    createDatabase false erp spec = Except.ok () := rfl

theorem createDatabase_true_none (spec : RetentionPolicySpec) :
    createDatabase true none spec = Except.ok () := rfl

theorem createDatabase_true_some (rpi : RetentionPolicyInfo) (spec : RetentionPolicySpec) :
    createDatabase true (some rpi) spec
      = if nonmatchingRp spec rpi = true then
          Except.error (("retention policy ").data ++ spec.name
            ++ (" already exists with different parameters").data)
        else Except.ok () := rfl

/-- C6: the importer attaches a duration to the retention-policy spec exactly
when the requested duration is at least one hour, and `createDatabase` returns
the `retention policy ... already exists with different parameters` error if
and only if the database exists and the named retention policy exists in it
and differs from the spec on duration (when specified), replicaN (when
specified), or shard-group duration; otherwise it succeeds (creating or
reusing the database and retention policy). -/
theorem c6_importer_rp (rp : List Char) (sd d : Int) (dbExists : Bool)
    (existingRp : Option RetentionPolicyInfo) (spec : RetentionPolicySpec) :
    ((mkImporterRpSpec rp sd d).duration = some d ↔ hourNanos ≤ d)
    ∧ ((mkImporterRpSpec rp sd d).duration = none ↔ d < hourNanos)
    ∧ ((mkImporterRpSpec rp sd d).replicaN = none ∧ (mkImporterRpSpec rp sd d).name = rp
        ∧ (mkImporterRpSpec rp sd d).shardGroupDuration = sd)
    ∧ ((∃ msg, createDatabase dbExists existingRp spec = Except.error msg)
        ↔ dbExists = true ∧ ∃ rpi, existingRp = some rpi ∧
            ((∃ du, spec.duration = some du ∧ rpi.duration ≠ du)
              ∨ (∃ rn, spec.replicaN = some rn ∧ rpi.replicaN ≠ rn)
              ∨ rpi.shardGroupDuration ≠ spec.shardGroupDuration))
    ∧ (∀ msg, createDatabase dbExists existingRp spec = Except.error msg →
        msg = ("retention policy ").data ++ spec.name
          ++ (" already exists with different parameters").data) := by
  refine ⟨?_, ?_, ⟨rfl, rfl, rfl⟩, ?_, ?_⟩
  · unfold mkImporterRpSpec
    by_cases h : hourNanos ≤ d
    · simp [h]
    · simp [h]
  · unfold mkImporterRpSpec
    by_cases h : hourNanos ≤ d
    · simp [h]
    · simp [h]
      omega
  · cases dbExists with
    | false =>
      simp [createDatabase_false]
    | true =>
      cases existingRp with
      | none => simp [createDatabase_true_none]
      | some rpi =>
        rw [createDatabase_true_some]
        by_cases hnm : nonmatchingRp spec rpi = true
        · rw [if_pos hnm]
          constructor
          · intro _
            exact ⟨rfl, rpi, rfl, (nonmatchingRp_iff spec rpi).mp hnm⟩
          · intro _
            exact ⟨_, rfl⟩
        · rw [if_neg hnm]
          constructor
          · rintro ⟨msg, hmsg⟩
            exact absurd hmsg (by simp)
          · rintro ⟨_, rpi2, hrpi2, hmm⟩
            injection hrpi2 with hr
            subst hr
            exact absurd ((nonmatchingRp_iff spec rpi).mpr hmm) hnm
  · intro msg hmsg
    cases dbExists with
    | false =>
      rw [createDatabase_false] at hmsg
      exact absurd hmsg (by simp)
    | true =>
      cases existingRp with
      | none =>
        rw [createDatabase_true_none] at hmsg
        exact absurd hmsg (by simp)
      | some rpi =>
        rw [createDatabase_true_some] at hmsg
        by_cases hnm : nonmatchingRp spec rpi = true
        · rw [if_pos hnm] at hmsg
          injection hmsg with h
          exact h.symm
        · rw [if_neg hnm] at hmsg
          exact absurd hmsg (by simp)

/-- C9 counterexample: both flags given and valid RFC3339
(`--start 1970-01-01T00:00:00Z`, i.e. Unix nanosecond 0, and
`--end 1969-12-31T23:59:59Z`, i.e. Unix nanosecond −10⁹), the end is earlier
than the start, yet `validate` succeeds: the guard requires both parsed times
to be non-zero, and the epoch parses to exactly zero. -/
theorem c9_validate_cex :
    validateTransfer (some 0) (some (-1000000000)) 0 1 [] ['i', 'd', 'x']
        (("%db,%mm").data)
      = Except.ok () := rfl

/-- C9 (amended): `validate` returns the `end time before start time` error
whenever both a start and an end flag are given, both parse to non-zero Unix
nanoseconds, and the end is earlier than the start.  (When either equals the
Unix epoch exactly, the check is skipped — see the counterexample.) -/
theorem c9_validate_end_before_start (s e worker nodeTotal : Int) (ni : List Int)
    (hk sk : List Char) (hs : s ≠ 0) (he : e ≠ 0) (hlt : e < s) :
    validateTransfer (some s) (some e) worker nodeTotal ni hk sk
      = Except.error (("end time before start time").data) := by
  unfold validateTransfer
  rw [if_pos ⟨hs, he, hlt⟩]

/-- Witness for C9's amended theorem at `s = 1`, `e = −1`. -/
theorem c9_validate_end_before_start_witness :
    (1 : Int) ≠ 0 ∧ (-1 : Int) ≠ 0 ∧ (-1 : Int) < 1
    ∧ validateTransfer (some 1) (some (-1)) 0 1 [] ['i', 'd', 'x'] (("%db,%mm").data)
        = Except.error (("end time before start time").data) :=
  ⟨by decide, by decide, by decide,
    c9_validate_end_before_start 1 (-1) 0 1 [] ['i', 'd', 'x'] (("%db,%mm").data)
      (by decide) (by decide) (by decide)⟩

theorem find?_unique {α : Type} {p : α → Bool} :
    ∀ {l : List α} {a : α}, a ∈ l → p a = true → (∀ b ∈ l, p b = true → b = a) →
      l.find? p = some a := by
  intro l
  induction l with
  | nil =>
    intro a ha
    simp at ha
  | cons x xs ih =>
    intro a ha hpa huniq
    cases hx : p x with
    | true =>
      rw [List.find?_cons_of_pos _ hx]
      rw [huniq x (List.mem_cons_self x xs) hx]
    | false =>
      rw [List.find?_cons_of_neg _ (by simp [hx])]
      have hax : a ≠ x := by
        intro he
        rw [he, hx] at hpa
        exact Bool.false_ne_true hpa
      have ha2 : a ∈ xs := by
        rcases List.mem_cons.mp ha with h | h
        · exact absurd h hax
        · exact h
      exact ih ha2 hpa (fun b hb hpb => huniq b (List.mem_cons_of_mem _ hb) hpb)

/-- C5: for every valid hash-key scheme (`"idx"`, `"exi"`, or a template
containing `%idx`) and every `i < nodeTotal`, the ring construction adds
exactly the strings `nodeStr(0) … nodeStr(nodeTotal−1)` with 256 virtual
replicas, and the reverse map sends `nodeStr(i)` back to `i`. -/
theorem c5_ring_construction (nodeTotal : Nat) (hashKey : List Char)
    (hv : hashKey = ['i', 'd', 'x'] ∨ hashKey = ['e', 'x', 'i']
          ∨ containsL hashKey varIdxT = true)
    (i : Nat) (hi : i < nodeTotal) :
    (newConsistentHash nodeTotal hashKey).entries
        = (List.range nodeTotal).map (fun j => (nodeStr hashKey j, 256))
    ∧ (nodeStr hashKey i, 256) ∈ (newConsistentHash nodeTotal hashKey).entries
    ∧ lookupIdx (newConsistentHash nodeTotal hashKey).mapToIdx (nodeStr hashKey i)
        = some i := by
  have hspec := newConsistentHash_spec hashKey nodeTotal
  have hinj := nodeStr_inj hv
  refine ⟨hspec.1, ?_, ?_⟩
  · rw [hspec.1]
    exact List.mem_map.mpr ⟨i, List.mem_range.mpr hi, rfl⟩
  · rw [hspec.2]
    unfold lookupIdx
    have hmem : (nodeStr hashKey i, i)
        ∈ ((List.range nodeTotal).map (fun j => (nodeStr hashKey j, j))).reverse := by
      rw [List.mem_reverse]
      exact List.mem_map.mpr ⟨i, List.mem_range.mpr hi, rfl⟩
    have huniq : ∀ b ∈ ((List.range nodeTotal).map (fun j => (nodeStr hashKey j, j))).reverse,
        (b.1 == nodeStr hashKey i) = true → b = (nodeStr hashKey i, i) := by
      intro b hb hpb
      rw [List.mem_reverse] at hb
      obtain ⟨j, hj, rfl⟩ := List.mem_map.mp hb
      have hji : nodeStr hashKey j = nodeStr hashKey i := by simpa using hpb
      rw [hinj j i hji]
    rw [find?_unique hmem (by simp) huniq]
    rfl

/-- Witness for C5 with the `"exi"` scheme, two nodes, index 1. -/
theorem c5_ring_construction_witness :
    (['e', 'x', 'i'] = ['i', 'd', 'x'] ∨ ['e', 'x', 'i'] = ['e', 'x', 'i']
      ∨ containsL ['e', 'x', 'i'] varIdxT = true)
    ∧ 1 < 2
    ∧ ((newConsistentHash 2 ['e', 'x', 'i']).entries
          = (List.range 2).map (fun j => (nodeStr ['e', 'x', 'i'] j, 256))
        ∧ (nodeStr ['e', 'x', 'i'] 1, 256) ∈ (newConsistentHash 2 ['e', 'x', 'i']).entries
        ∧ lookupIdx (newConsistentHash 2 ['e', 'x', 'i']).mapToIdx (nodeStr ['e', 'x', 'i'] 1)
            = some 1) :=
  ⟨Or.inr (Or.inl rfl), by decide,
    c5_ring_construction 2 ['e', 'x', 'i'] (Or.inr (Or.inl rfl)) 1 (by decide)⟩

/-- C7 (amended): when the shard writer reports an error during `Write`, the
worker closes the series writer and the shard writer, resets the current
shard, deletes the partial target shard directory, and returns the aggregated
error — but the shard-group record in the target catalog is left in place
(`removeShardGroup` only performs `os.RemoveAll` on the directory). -/
theorem c7_write_failure (dataDir db rp : List Char) (st : ImportState) (msg : List Char)
    (hopen : st.shOpen = true) :
    ((importWrite dataDir db rp st (some msg)).1.shOpen = false
      ∧ (importWrite dataDir db rp st (some msg)).1.swOpen = false
      ∧ (importWrite dataDir db rp st (some msg)).1.currentShard = 0)
    ∧ (importWrite dataDir db rp st (some msg)).1.dirs
        = st.dirs.filter (fun dr => !(dr == shardDirPath dataDir db rp st.currentShard))
    ∧ shardDirPath dataDir db rp st.currentShard
        ∉ (importWrite dataDir db rp st (some msg)).1.dirs
    ∧ (importWrite dataDir db rp st (some msg)).1.metaGroups = st.metaGroups
    ∧ (importWrite dataDir db rp st (some msg)).2 = Except.error [msg] := by
  have hred : importWrite dataDir db rp st (some msg)
      = (({ st with
            shOpen := false
            swOpen := false
            currentShard := 0
            dirs := st.dirs.filter
              (fun dr => !(dr == shardDirPath dataDir db rp st.currentShard)) } : ImportState),
          Except.error [msg]) := by
    unfold importWrite
    rw [hopen]
    rfl
  rw [hred]
  refine ⟨⟨rfl, rfl, rfl⟩, rfl, ?_, rfl, rfl⟩
  intro hmem
  have := (List.mem_filter.mp hmem).2
  simp at this

/-- A concrete import-worker state for the C7 instance: shard 5 open, its
directory present on disk, its shard-group record present in the catalog. -/
def c7State : ImportState :=
  { shOpen := true, swOpen := true, currentShard := 5,
    dirs := [shardDirPath ['d'] ['x'] ['r'] 5], metaGroups := [5] }

/-- Witness for C7's amended theorem at the concrete state `c7State`. -/
theorem c7_write_failure_witness :
    c7State.shOpen = true
    ∧ (((importWrite ['d'] ['x'] ['r'] c7State (some ['E'])).1.shOpen = false
        ∧ (importWrite ['d'] ['x'] ['r'] c7State (some ['E'])).1.swOpen = false
        ∧ (importWrite ['d'] ['x'] ['r'] c7State (some ['E'])).1.currentShard = 0)
      ∧ (importWrite ['d'] ['x'] ['r'] c7State (some ['E'])).1.dirs
          = c7State.dirs.filter
              (fun dr => !(dr == shardDirPath ['d'] ['x'] ['r'] c7State.currentShard))
      ∧ shardDirPath ['d'] ['x'] ['r'] c7State.currentShard
          ∉ (importWrite ['d'] ['x'] ['r'] c7State (some ['E'])).1.dirs
      ∧ (importWrite ['d'] ['x'] ['r'] c7State (some ['E'])).1.metaGroups = c7State.metaGroups
      ∧ (importWrite ['d'] ['x'] ['r'] c7State (some ['E'])).2 = Except.error [['E']]) :=
  ⟨rfl, c7_write_failure ['d'] ['x'] ['r'] c7State ['E'] rfl⟩

/-- C7 counterexample: after a mid-shard write failure on shard 5, the partial
shard directory is gone but the shard-group record 5 is still in the catalog —
`Write`'s error path never removes the catalog record, refuting "removes the
shard-group record that was created for that shard". -/
theorem c7_record_cex :
    (importWrite ['d'] ['x'] ['r'] c7State (some ['E'])).1.metaGroups = [5]
    ∧ (5 : Nat) ∈ (importWrite ['d'] ['x'] ['r'] c7State (some ['E'])).1.metaGroups
    ∧ (importWrite ['d'] ['x'] ['r'] c7State (some ['E'])).1.dirs = [] := by
  refine ⟨rfl, ?_, ?_⟩
  · rw [show (importWrite ['d'] ['x'] ['r'] c7State (some ['E'])).1.metaGroups = [5] from rfl]
    simp
  · show ([shardDirPath ['d'] ['x'] ['r'] 5].filter
        (fun dr => !(dr == shardDirPath ['d'] ['x'] ['r'] 5))) = []
    simp

theorem processBlocks_cons (pm : List Char → List Char) (vt : List Char → Bool)
    (m : List Char) (sanitize : Bool) (b : TSMBlock) (rest : List TSMBlock) :
    processBlocks pm vt m sanitize (b :: rest)
      = if (pm b.key == m || (sanitize && !vt b.key)) = true
        then processBlocks pm vt m sanitize rest
        else FsAction.writeBlock b :: processBlocks pm vt m sanitize rest := rfl

theorem processBlocks_eq (pm : List Char → List Char) (vt : List Char → Bool)
    (m : List Char) (sanitize : Bool) :
    ∀ blocks : List TSMBlock,
      processBlocks pm vt m sanitize blocks
        = (blocks.filter (fun b => !(pm b.key == m || (sanitize && !vt b.key)))).map
            FsAction.writeBlock := by
  intro blocks
  induction blocks with
  | nil => rfl
  | cons b rest ih =>
    rw [processBlocks_cons, List.filter_cons]
    cases hb : (pm b.key == m || (sanitize && !vt b.key)) with
    | true => simp [ih]
    | false => simp [ih]

theorem writtenBlocks_append (xs ys : List FsAction) :
    writtenBlocks (xs ++ ys) = writtenBlocks xs ++ writtenBlocks ys := by
  unfold writtenBlocks
  rw [List.filterMap_append]

theorem writtenBlocks_map_writeBlock (bs : List TSMBlock) :
    writtenBlocks (bs.map FsAction.writeBlock) = bs := by
  induction bs with
  | nil => rfl
  | cons b rest ih => exact congrArg (List.cons b) ih

theorem keepBlock_iff (pm : List Char → List Char) (vt : List Char → Bool)
    (m : List Char) (sanitize : Bool) (b : TSMBlock) :
    (!(pm b.key == m || (sanitize && !vt b.key))) = true
      ↔ ¬(pm b.key = m ∨ (sanitize = true ∧ vt b.key = false)) := by
  cases hm : pm b.key == m <;> cases hs : sanitize <;> cases hv : vt b.key <;>
    simp_all

/-- C8: `deletetsm` writes to the rewrite file exactly the blocks whose parsed
measurement differs from `m` and which (when `sanitize` is set) have valid
printable key tokens; a block is dropped iff `measurement == m` or
(`sanitize && !validTokens`); kept blocks are preserved bit-exactly (the very
same key, min time, max time and block bytes, in order); and the trace ends by
writing the index and then renaming the rewrite file over the original. -/
theorem c8_deletetsm_selectivity (pm : List Char → List Char) (vt : List Char → Bool)
    (m : List Char) (sanitize : Bool) (path : List Char) (blocks : List TSMBlock) :
    writtenBlocks (deletetsmProcess pm vt m sanitize path blocks)
        = blocks.filter (fun b => !(pm b.key == m || (sanitize && !vt b.key)))
    ∧ (∀ b : TSMBlock,
        b ∈ writtenBlocks (deletetsmProcess pm vt m sanitize path blocks)
          ↔ b ∈ blocks ∧ ¬(pm b.key = m ∨ (sanitize = true ∧ vt b.key = false)))
    ∧ (deletetsmProcess pm vt m sanitize path blocks).getLast?
        = some (FsAction.renameFile (path ++ (".rewriting.tmp").data) path)
    ∧ (deletetsmProcess pm vt m sanitize path blocks).dropLast.getLast?
        = some FsAction.writeIdx := by
  have hsplit : deletetsmProcess pm vt m sanitize path blocks
      = ((FsAction.removeAll (path ++ (".rewriting.tmp").data)
          :: FsAction.removeAll (path ++ (".rewriting.tmp.idx.tmp").data)
          :: FsAction.createFile (path ++ (".rewriting.tmp").data)
          :: processBlocks pm vt m sanitize blocks) ++ [FsAction.writeIdx])
        ++ [FsAction.renameFile (path ++ (".rewriting.tmp").data) path] := by
    unfold deletetsmProcess
    simp
  have hwritten : writtenBlocks (deletetsmProcess pm vt m sanitize path blocks)
      = blocks.filter (fun b => !(pm b.key == m || (sanitize && !vt b.key))) := by
    have h1 : writtenBlocks (deletetsmProcess pm vt m sanitize path blocks)
        = writtenBlocks (processBlocks pm vt m sanitize blocks
            ++ [FsAction.writeIdx,
                FsAction.renameFile (path ++ (".rewriting.tmp").data) path]) := rfl
    rw [h1, writtenBlocks_append, processBlocks_eq, writtenBlocks_map_writeBlock]
    simp [writtenBlocks]
  refine ⟨hwritten, ?_, ?_, ?_⟩
  · intro b
    rw [hwritten, List.mem_filter, keepBlock_iff]
  · rw [hsplit, List.getLast?_concat]
  · rw [hsplit, List.dropLast_concat, List.getLast?_concat]

theorem hashdistFold_aux (ver : HdVersion) (sep : List Char) (get : List Char → Nat)
    (parts : List (List Char)) :
    ∀ (lines : List (List Char)) (acc : (Nat → Nat) × Nat × Nat),
      (∀ n : Nat, (lines.foldl (hdStep ver sep get parts) acc).1 n
          = acc.1 n + (lines.filterMap (hashdistLine ver sep get parts)).count n)
      ∧ (lines.foldl (hdStep ver sep get parts) acc).2.1
          = acc.2.1 + (lines.filterMap (hashdistLine ver sep get parts)).length
      ∧ (lines.foldl (hdStep ver sep get parts) acc).2.2
          = acc.2.2 + (lines.filter
              (fun l => (hashdistLine ver sep get parts l).isNone)).length := by
  intro lines
  induction lines with
  | nil =>
    intro acc
    refine ⟨fun n => by simp, by simp, by simp⟩
  | cons line rest ih =>
    intro acc
    rw [List.foldl_cons]
    have hstep := ih (hdStep ver sep get parts acc line)
    cases hline : hashdistLine ver sep get parts line with
    | some n0 =>
      have hsr : hdStep ver sep get parts acc line
          = (fun k => if k = n0 then acc.1 k + 1 else acc.1 k, acc.2.1 + 1, acc.2.2) := by
        unfold hdStep
        rw [hline]
      rw [hsr] at hstep
      rw [hsr]
      refine ⟨fun n => ?_, ?_, ?_⟩
      · rw [hstep.1 n, List.filterMap_cons_some hline, List.count_cons]
        by_cases hn : n = n0
        · subst hn
          simp
          omega
        · simp [hn, Ne.symm hn]
      · rw [hstep.2.1, List.filterMap_cons_some hline]
        simp
        omega
      · rw [hstep.2.2, List.filter_cons]
        simp [hline]
    | none =>
      have hsr : hdStep ver sep get parts acc line = (acc.1, acc.2.1, acc.2.2 + 1) := by
        unfold hdStep
        rw [hline]
      rw [hsr] at hstep
      rw [hsr]
      refine ⟨fun n => ?_, ?_, ?_⟩
      · rw [hstep.1 n, List.filterMap_cons_none hline]
      · rw [hstep.2.1, List.filterMap_cons_none hline]
      · rw [hstep.2.2, List.filter_cons]
        simp [hline]
        omega

/-- C10: in `hashdist --file` mode each line is settled as follows.  Under v1
the line contributes exactly one hit — to the node of `GetKey(db, mm)` where
`db` is the text before the first occurrence of the separator and `mm` is the
entire remainder — iff the separator occurs in the line; under v2 the line
contributes exactly one hit iff splitting it on the separator yields exactly
three items; every other line adds one warning and contributes to no node's
count.  `dist[n]` equals the number of lines contributing to node `n`, and
`warn` counts the warned lines. -/
theorem c10_hashdist_file (sep : List Char) (get : List Char → Nat)
    (parts : List (List Char)) (lines : List (List Char)) :
    (∀ (ver : HdVersion) (n : Nat),
        (hashdistFold ver sep get parts lines).1 n
          = (lines.filterMap (hashdistLine ver sep get parts)).count n)
    ∧ (∀ ver : HdVersion,
        (hashdistFold ver sep get parts lines).2.2
          = (lines.filter (fun l => (hashdistLine ver sep get parts l).isNone)).length)
    ∧ (∀ line db mm : List Char, cutL line sep = some (db, mm) →
        line = db ++ sep ++ mm
        ∧ (∀ db2 mm2 : List Char, line = db2 ++ sep ++ mm2 → db.length ≤ db2.length)
        ∧ hashdistLine HdVersion.v1 sep get parts line
            = some (get (getKeyTpl parts db mm)))
    ∧ (∀ line : List Char,
        hashdistLine HdVersion.v1 sep get parts line = none
          ↔ ¬ ∃ a b : List Char, line = a ++ sep ++ b)
    ∧ (∀ line : List Char,
        (hashdistLine HdVersion.v2 sep get parts line).isSome = true
          ↔ (splitOnL sep line).length = 3)
    ∧ (∀ line o b m : List Char, splitOnL sep line = [o, b, m] →
        hashdistLine HdVersion.v2 sep get parts line
          = some (get (getKeyV2Tpl parts o b m))) := by
  refine ⟨?_, ?_, ?_, ?_, ?_, ?_⟩
  · intro ver n
    have := (hashdistFold_aux ver sep get parts lines (fun _ => 0, 0, 0)).1 n
    simpa [hashdistFold] using this
  · intro ver
    have := (hashdistFold_aux ver sep get parts lines (fun _ => 0, 0, 0)).2.2
    simpa [hashdistFold] using this
  · intro line db mm hcut
    refine ⟨cutL_eq_append hcut, cutL_first hcut, ?_⟩
    unfold hashdistLine
    rw [hcut]
  · intro line
    unfold hashdistLine
    cases hcut : cutL line sep with
    | some pr =>
      simp only [reduceCtorEq, false_iff, not_not]
      exact ⟨pr.1, pr.2, cutL_eq_append (show cutL line sep = some (pr.1, pr.2) by
        simpa using hcut)⟩
    | none =>
      simp only [true_iff]
      rw [cutL_none_iff] at hcut
      rintro ⟨a, b, rfl⟩
      exact hcut a b rfl
  · intro line
    unfold hashdistLine
    cases hsp : splitOnL sep line with
    | nil => simp
    | cons o t1 =>
      cases t1 with
      | nil => simp
      | cons b2 t2 =>
        cases t2 with
        | nil => simp
        | cons m2 t3 =>
          cases t3 with
          | nil => simp
          | cons x t4 => simp
  · intro line o b m hsp
    unfold hashdistLine
    rw [hsp]

/-- C2 (amended): for a non-empty source list and `sd > 0`, the windows emitted
by `planShardGroups` are pairwise disjoint; each has length exactly `sd`,
intersects the requested range (`start ≤ endNanos` and `startNanos < end`),
and overlaps at least one source group on `[start, end)` (checked at
`end - 1`); and the *candidate* tiling `makeShardGroupsForDuration` covers the
whole span `[T(min), T(max) + sd)` where `T` is Go `time.Truncate` (zero-time
based, not the Unix-epoch `ceil` formula of the original claim). -/
theorem c2_planner_tiling (g0 : ShardGroup) (gs : List ShardGroup) (sd s e : Int)
    (hsd : 0 < sd) :
    List.Pairwise (fun a b => a.endTime ≤ b.startTime)
        (planShardGroups (g0 :: gs) sd s e)
    ∧ (∀ g ∈ planShardGroups (g0 :: gs) sd s e,
        g.endTime = g.startTime + sd
        ∧ g.startTime ≤ e ∧ s < g.endTime
        ∧ ∃ sg ∈ g0 :: gs, sg.startTime ≤ g.endTime - 1 ∧ g.startTime < sg.endTime)
    ∧ (∀ x : Int, goTruncate sd g0.startTime ≤ x →
        x < goTruncate sd (gs.getLastD g0).endTime + sd →
        ∃ g ∈ makeShardGroupsForDuration g0.startTime (gs.getLastD g0).endTime sd,
          g.startTime ≤ x ∧ x < g.endTime) := by
  refine ⟨?_, ?_, ?_⟩
  · show List.Pairwise _ (List.filter _ _)
    exact List.Pairwise.sublist (List.filter_sublist _) (makeShardGroups_pairwise _ _ _ hsd)
  · intro g hg
    have hg' : g ∈ List.filter
        (fun g =>
          !(decide (g.startTime > e) || decide (g.endTime ≤ s)) &&
          hasShardsGroupForTimeRange (g0 :: gs) g.startTime (g.endTime - 1))
        (makeShardGroupsForDuration g0.startTime (gs.getLastD g0).endTime sd) := hg
    rw [List.mem_filter] at hg'
    obtain ⟨hmem, hpred⟩ := hg'
    simp only [hasShardsGroupForTimeRange, sgOverlaps, List.any_eq_true, Bool.and_eq_true,
      Bool.not_eq_true', Bool.or_eq_false_iff, decide_eq_false_iff_not, decide_eq_true_eq,
      not_lt, not_le, gt_iff_lt] at hpred
    obtain ⟨⟨hle, hgt⟩, sg, hsg, h1, h2⟩ := hpred
    rw [mem_makeShardGroups] at hmem
    obtain ⟨i, hi, rfl⟩ := hmem
    exact ⟨rfl, hle, by omega, sg, hsg, h1, h2⟩
  · intro x hx1 hx2
    exact makeShardGroups_cover hsd x hx1 hx2

/-- Witness for C2 at a concrete instance: one 24h source group starting at
the Unix epoch, `sd = 24h`, full int64 range. -/
theorem c2_planner_tiling_witness :
    List.Pairwise (fun a b => a.endTime ≤ b.startTime)
      (planShardGroups [⟨0, 86400000000000⟩] 86400000000000 minInt64 maxInt64) :=
  (c2_planner_tiling ⟨0, 86400000000000⟩ [] 86400000000000 minInt64 maxInt64 (by decide)).1

/-- Counterexample to C2 as stated: with one 24h source group `[0, 24h)` and
`sd = 24h`, the claimed union `[ceil(min/sd)*sd - sd, ceil(max/sd)*sd)` is
`[-24h, 24h)` and contains `-1`, but the only emitted window is `[0, 24h)`,
which does not contain `-1`: the emitted windows do not cover the claimed
union. -/
theorem c2_tiling_cex :
    planShardGroups [⟨0, 86400000000000⟩] 86400000000000 minInt64 maxInt64
        = [⟨0, 86400000000000⟩]
    ∧ ((-86400000000000 : Int) ≤ -1 ∧ (-1 : Int) < 86400000000000)
    ∧ ¬ (ShardGroup.startTime ⟨0, 86400000000000⟩ ≤ -1
          ∧ (-1 : Int) < ShardGroup.endTime ⟨0, 86400000000000⟩) := by
  refine ⟨by decide, by decide, by decide⟩

/-- C3 (amended): every window emitted by the planner has
`end = start + sd`, and its start is aligned to `sd` *relative to the Go
zero time* (`sd ∣ start + unixToInternal`); the start is a plain multiple of
`sd` exactly when `sd` divides the zero-time offset — true for 24h and its
divisors, false for the 168h default. -/
theorem c3_planner_alignment (src : List ShardGroup) (sd s e : Int) (hsd : 0 < sd) :
    ∀ g ∈ planShardGroups src sd s e,
      g.endTime = g.startTime + sd
      ∧ sd ∣ (g.startTime + unixToInternalNanos)
      ∧ (sd ∣ unixToInternalNanos → sd ∣ g.startTime) := by
  intro g hg
  match src with
  | [] => simp [planShardGroups] at hg
  | g0 :: gs =>
    have hg' : g ∈ List.filter
        (fun g =>
          !(decide (g.startTime > e) || decide (g.endTime ≤ s)) &&
          hasShardsGroupForTimeRange (g0 :: gs) g.startTime (g.endTime - 1))
        (makeShardGroupsForDuration g0.startTime (gs.getLastD g0).endTime sd) := hg
    rw [List.mem_filter] at hg'
    obtain ⟨hmem, _⟩ := hg'
    rw [mem_makeShardGroups] at hmem
    obtain ⟨i, hi, rfl⟩ := hmem
    have h1 := goTruncate_dvd hsd g0.startTime
    have h2 : sd ∣ (i : Int) * sd := dvd_mul_left sd (i : Int)
    refine ⟨rfl, ?_, ?_⟩
    · have h3 := dvd_add h1 h2
      have heq : goTruncate sd g0.startTime + unixToInternalNanos + (i : Int) * sd
          = goTruncate sd g0.startTime + (i : Int) * sd + unixToInternalNanos := by ring
      rw [heq] at h3
      exact h3
    · intro hU
      have h3 : sd ∣ goTruncate sd g0.startTime := by
        have := dvd_sub h1 hU
        simpa using this
      exact dvd_add h3 h2

/-- Witness for C3 at a concrete instance: the single window emitted for one
24h source group at the epoch with `sd = 24h`. -/
theorem c3_planner_alignment_witness :
    ShardGroup.endTime ⟨0, 86400000000000⟩
        = ShardGroup.startTime ⟨0, 86400000000000⟩ + 86400000000000
    ∧ (86400000000000 : Int) ∣ (ShardGroup.startTime ⟨0, 86400000000000⟩ + unixToInternalNanos)
    ∧ ((86400000000000 : Int) ∣ unixToInternalNanos
        → (86400000000000 : Int) ∣ ShardGroup.startTime ⟨0, 86400000000000⟩) :=
  c3_planner_alignment [⟨0, 86400000000000⟩] 86400000000000 minInt64 maxInt64 (by decide)
    ⟨0, 86400000000000⟩ (by decide)

/-- Counterexample to C3 as stated: with the default `sd = 168h` and one
source group `[0, 168h)`, the planner emits a window starting at
`-259200000000000` (3 days before the epoch), which is not an integer
multiple of `sd`: Go truncation is zero-time based, not `floor(nanos/sd)*sd`. -/
theorem c3_alignment_cex :
    planShardGroups [⟨0, 604800000000000⟩] 604800000000000 minInt64 maxInt64
        = [⟨-259200000000000, 345600000000000⟩, ⟨345600000000000, 950400000000000⟩]
    ∧ ¬ (604800000000000 : Int) ∣ (-259200000000000 : Int) := by
  refine ⟨by decide, ?_⟩
  rintro ⟨k, hk⟩
  omega

end InfluxTool